import Mathlib

/-!
Verification of the datafrog core (src/src/lib.rs and src/src/join.rs): a shallow
embedding of the Relation / Variable data model and of the gallop / join / antijoin
kernels, together with proofs of the specified properties.

Tuples are modelled as elements of an arbitrary linear order, relation element
vectors as lists, and the stateful loops of the source as explicit recursion.
-/

namespace Datafrog

variable {α : Type} [LinearOrder α]

/-- Rust Vec::dedup (used by Relation::merge): removes consecutive repeated
elements, keeping the first element of each run. -/
def dedupAdj : List α → List α
  | [] => []
  | [a] => [a]
  | a :: b :: rest => if a = b then dedupAdj (b :: rest) else a :: dedupAdj (b :: rest)

/-- Rust slice sort (lib.rs uses both sort and sort_unstable). Over a linear
order every sort returns the one sorted permutation of its input, which
insertion sort also computes; stability is unobservable because elements that
compare equal are equal. -/
def rustSort (l : List α) : List α := l.insertionSort (· ≤ ·)

/-- Relation::merge (lib.rs lines 36-63): concatenate the two element vectors,
then sort and dedup. The capacity-based branch in the source only selects which
vector is extended, i.e. the order of concatenation before sorting; over a
linear order the sorted result is the same either way, so the embedding fixes
one order. -/
def Relation.merge (a b : List α) : List α := dedupAdj (rustSort (a ++ b))

/-- The From impl for Relation (lib.rs lines 66-72): collect the iterator and
sort_unstable. Note that this constructor does not dedup. -/
def Relation.fromIterator (l : List α) : List α := rustSort l

/-- Modelled from the spec: Relation::from_vec is called by join.rs but its
definition is not under src/ (the two files are from different revisions).
Per the spec, collected results are formed into a Relation with sort and dedup
implied by its constructor. -/
def Relation.from_vec (l : List α) : List α := dedupAdj (rustSort l)

/-- First loop of gallop (join.rs lines 126-130): double the step while the
probe at offset step satisfies the predicate, advancing the slice to the probe
each time. The 0 < step conjunct is invariant at every reachable call (the
initial step is 1 and the step only doubles); it is part of the guard here only
to make the recursion well founded on unreachable arguments. -/
def gallopDoubling {T : Type} (s : List T) (p : T → Bool) (step : ℕ) : List T × ℕ :=
  if h : 0 < step ∧ step < s.length then
    if p (s.get ⟨step, h.2⟩) then gallopDoubling (s.drop step) p (2 * step)
    else (s, step)
  else (s, step)
termination_by s.length
decreasing_by simp [List.length_drop]; omega

/-- Second loop of gallop (join.rs lines 132-138): halve the step down to zero,
advancing the slice by step whenever the probe at offset step satisfies the
predicate. -/
def gallopHalving {T : Type} (s : List T) (p : T → Bool) (step : ℕ) : List T :=
  if step = 0 then s
  else
    gallopHalving
      (if h : step < s.length then (if p (s.get ⟨step, h⟩) then s.drop step else s) else s)
      p (step / 2)
termination_by step
decreasing_by omega

/-- gallop (join.rs lines 123-144): if the slice is nonempty and the predicate
holds on its head, run the doubling loop starting at step 1, halve the final
step, run the halving loop, and advance one final element; otherwise return the
slice unchanged. -/
def gallop {T : Type} : List T → (T → Bool) → List T
  | [], _ => []
  | a :: t, p =>
    if p a then
      (gallopHalving (gallopDoubling (a :: t) p 1).1 p ((gallopDoubling (a :: t) p 1).2 / 2)).drop 1
    else a :: t

/-- The gallop contract from the spec: once the predicate returns false on an
element of the slice it never returns true on any later element. -/
def Monotonic {T : Type} (p : T → Bool) (s : List T) : Prop :=
  s.Pairwise (fun x y => p y = true → p x = true)

instance {T : Type} (p : T → Bool) (s : List T) : Decidable (Monotonic p s) :=
  inferInstanceAs (Decidable (s.Pairwise fun x y => p y = true → p x = true))

/-- join_helper (join.rs lines 82-121): the sorted-merge join kernel. Compare
the head keys; gallop the smaller side past keys below the larger head; on
equal keys emit the cross product of the two equal-key runs (row major, with
the shared key) and advance both sides past the runs. The callback
accumulation is modelled as the returned list of results, in emission order.
The termination argument (each iteration strictly shrinks a slice, because
gallop always returns a suffix and advances at least one element when the
predicate holds on the head) is proved inline. -/
def join_helper {β γ κ ρ : Type} [LinearOrder κ] (k1 : β → κ) (k2 : γ → κ)
    (logic : κ → β → γ → ρ) : List β → List γ → List ρ
  | [], _ => []
  | _ :: _, [] => []
  | a :: t1, b :: t2 =>
    if h : k1 a < k2 b then
      join_helper k1 k2 logic (gallop (a :: t1) (fun x => decide (k1 x < k2 b))) (b :: t2)
    else if h2 : k2 b < k1 a then
      join_helper k1 k2 logic (a :: t1) (gallop (b :: t2) (fun x => decide (k2 x < k1 a)))
    else
      ((a :: t1).take (((a :: t1).takeWhile fun x => decide (k1 x = k1 a)).length)).flatMap
        (fun x => ((b :: t2).take (((b :: t2).takeWhile fun x => decide (k2 x = k2 b)).length)).map
          (fun y => logic (k1 a) x y))
      ++ join_helper k1 k2 logic
          ((a :: t1).drop (((a :: t1).takeWhile fun x => decide (k1 x = k1 a)).length))
          ((b :: t2).drop (((b :: t2).takeWhile fun x => decide (k2 x = k2 b)).length))
termination_by s1 s2 => s1.length + s2.length
decreasing_by
· have A : ∀ {δ : Type} (q : δ → Bool) (st : ℕ) (s : List δ),
      ((gallopDoubling s q st).1).length ≤ s.length := by
    intro δ q st s
    induction s, q, st using gallopDoubling.induct with
    | case1 s q st hg hp ih =>
      rw [gallopDoubling, dif_pos hg, if_pos hp]
      exact le_trans ih (by simp)
    | case2 s q st hg hp => rw [gallopDoubling, dif_pos hg, if_neg hp]
    | case3 s q st hg => rw [gallopDoubling, dif_neg hg]
  have B : ∀ {δ : Type} (s : List δ) (q : δ → Bool) (st : ℕ),
      (gallopHalving s q st).length ≤ s.length := by
    intro δ s q st
    induction s, q, st using gallopHalving.induct with
    | case1 s q => rw [gallopHalving]; simp
    | case2 s q st hz ih =>
      rw [gallopHalving, if_neg hz]
      exact le_trans ih (by split_ifs <;> simp)
  have C : ∀ {δ : Type} (q : δ → Bool) (a0 : δ) (t : List δ), q a0 = true →
      (gallop (a0 :: t) q).length < (a0 :: t).length := by
    intro δ q a0 t hq
    have e : gallop (a0 :: t) q
        = (gallopHalving (gallopDoubling (a0 :: t) q 1).1 q
            ((gallopDoubling (a0 :: t) q 1).2 / 2)).drop 1 := by
      simp only [gallop]
      rw [if_pos hq]
    rw [e]
    have h1 := A q 1 (a0 :: t)
    have h2 := B (gallopDoubling (a0 :: t) q 1).1 q ((gallopDoubling (a0 :: t) q 1).2 / 2)
    simp only [List.length_drop, List.length_cons] at *
    omega
  have := C (fun x => decide (k1 x < k2 b)) a t1 (by simp [h])
  simp only [List.length_cons] at *
  omega
· have A : ∀ {δ : Type} (q : δ → Bool) (st : ℕ) (s : List δ),
      ((gallopDoubling s q st).1).length ≤ s.length := by
    intro δ q st s
    induction s, q, st using gallopDoubling.induct with
    | case1 s q st hg hp ih =>
      rw [gallopDoubling, dif_pos hg, if_pos hp]
      exact le_trans ih (by simp)
    | case2 s q st hg hp => rw [gallopDoubling, dif_pos hg, if_neg hp]
    | case3 s q st hg => rw [gallopDoubling, dif_neg hg]
  have B : ∀ {δ : Type} (s : List δ) (q : δ → Bool) (st : ℕ),
      (gallopHalving s q st).length ≤ s.length := by
    intro δ s q st
    induction s, q, st using gallopHalving.induct with
    | case1 s q => rw [gallopHalving]; simp
    | case2 s q st hz ih =>
      rw [gallopHalving, if_neg hz]
      exact le_trans ih (by split_ifs <;> simp)
  have C : ∀ {δ : Type} (q : δ → Bool) (a0 : δ) (t : List δ), q a0 = true →
      (gallop (a0 :: t) q).length < (a0 :: t).length := by
    intro δ q a0 t hq
    have e : gallop (a0 :: t) q
        = (gallopHalving (gallopDoubling (a0 :: t) q 1).1 q
            ((gallopDoubling (a0 :: t) q 1).2 / 2)).drop 1 := by
      simp only [gallop]
      rw [if_pos hq]
    rw [e]
    have h1 := A q 1 (a0 :: t)
    have h2 := B (gallopDoubling (a0 :: t) q 1).1 q ((gallopDoubling (a0 :: t) q 1).2 / 2)
    simp only [List.length_drop, List.length_cons] at *
    omega
  have := C (fun x => decide (k2 x < k1 a)) b t2 (by simp [h2])
  simp only [List.length_cons] at *
  omega
· have hc1 : 0 < (((a :: t1).takeWhile fun x => decide (k1 x = k1 a)).length) := by
    simp [List.takeWhile]
  have hc2 : 0 < (((b :: t2).takeWhile fun x => decide (k2 x = k2 b)).length) := by
    simp [List.takeWhile]
  have hl1 := (List.takeWhile_prefix (fun x => decide (k1 x = k1 a)) (l := a :: t1)).length_le
  have hl2 := (List.takeWhile_prefix (fun x => decide (k2 x = k2 b)) (l := b :: t2)).length_le
  simp only [List.length_drop, List.length_cons] at *
  omega

/-- The comprehension from the spec for one join region: every pair with equal
keys, in left-major order, mapped through the logic callback. This is the
formalisation of the claimed property, not a translation of source code. -/
def matchResults {β γ κ ρ : Type} [DecidableEq κ] (k1 : β → κ) (k2 : γ → κ)
    (logic : κ → β → γ → ρ) (s1 : List β) (s2 : List γ) : List ρ :=
  s1.flatMap fun x => (s2.filter fun y => decide (k2 y = k1 x)).map fun y => logic (k1 x) x y

/-- The result accumulation of join_into (join.rs lines 20-39): recent1 against
every stable batch of input2, then every stable batch of input1 against
recent2, then recent1 against recent2, in that order. -/
def joinResults {β γ κ ρ : Type} [LinearOrder κ] (k1 : β → κ) (k2 : γ → κ)
    (logic : κ → β → γ → ρ) (recent1 : List β) (stable1 : List (List β))
    (recent2 : List γ) (stable2 : List (List γ)) : List ρ :=
  (stable2.flatMap fun batch2 => join_helper k1 k2 logic recent1 batch2)
    ++ (stable1.flatMap fun batch1 => join_helper k1 k2 logic batch1 recent2)
    ++ join_helper k1 k2 logic recent1 recent2

/-- Variable (lib.rs lines 140-151): the three strata. The shared interior
mutability (Rc of RefCell) is modelled by explicit state passing. -/
structure Variable (σ : Type) where
  distinct : Bool
  name : String
  tuples : List (List σ)
  recent : List σ
  to_add : List (List σ)

/-- Variable::new (lib.rs lines 267-275): empty strata, distinct by default
(Iteration::variable keeps it; variable_indistinct clears it). -/
def Variable.new (nm : String) : Variable α :=
  ⟨true, nm, [], [], []⟩

/-- Variable::insert (lib.rs lines 281-283): push the relation onto to_add. -/
def Variable.insert (v : Variable α) (r : List α) : Variable α :=
  { v with to_add := v.to_add ++ [r] }

/-- The retain closure in step 2b of changed (lib.rs lines 323-329): walk the
elements, advancing a cursor over the batch by galloping past entries below
the element, and keep the element when the cursor is exhausted or its head
differs from the element. -/
def retainLoop : List α → List α → List α
  | _, [] => []
  | slice, x :: rest =>
    if (gallop slice fun y => decide (y < x)).length = 0
        ∨ (gallop slice fun y => decide (y < x)).head? ≠ some x then
      x :: retainLoop (gallop slice fun y => decide (y < x)) rest
    else retainLoop (gallop slice fun y => decide (y < x)) rest

/-- Step 1 of changed (lib.rs lines 306-310): while the last stable batch has
length at most twice the length of recent, pop it and merge it into recent. -/
def foldRecent (tuples : List (List α)) (recent : List α) : List (List α) × List α :=
  match h : tuples.getLast? with
  | some last =>
    if last.length ≤ 2 * recent.length then
      foldRecent tuples.dropLast (Relation.merge recent last)
    else (tuples, recent)
  | none => (tuples, recent)
termination_by tuples.length
decreasing_by
  have hne : tuples ≠ [] := by
    intro e
    rw [e] at h
    simp at h
  have hpos : 0 < tuples.length := List.length_pos.mpr hne
  simp only [List.length_dropLast]
  omega

/-- VariableTrait::changed for Variable (lib.rs lines 303-342). Step 1 folds
recent into the stable batches, pushing the merged batch if non-empty. Step 2
pops all pending relations (last first), merges them, filters the merge
against every stable batch when distinct, and makes the result the new
recent. The returned flag reports whether the new recent is non-empty. -/
def Variable.changed (v : Variable α) : Variable α × Bool :=
  let fr := foldRecent v.tuples v.recent
  let tuples1 := if fr.2.isEmpty then fr.1 else fr.1 ++ [fr.2]
  let recent1 :=
    match v.to_add.getLast? with
    | none => ([] : List α)
    | some last =>
      let merged := (v.to_add.dropLast.reverse).foldl Relation.merge last
      if v.distinct then tuples1.foldl (fun acc batch => retainLoop batch acc) merged
      else merged
  ({ v with tuples := tuples1, recent := recent1, to_add := [] }, !recent1.isEmpty)

/-- Variable::complete (lib.rs lines 290-299): assert that recent and to_add
are empty (the assertion failure is modelled as none), then merge the stable
batches, popped from the end, into a single relation. -/
def Variable.complete (v : Variable α) : Option (List α) :=
  if v.recent = [] ∧ v.to_add = [] then
    some (v.tuples.reverse.foldl Relation.merge [])
  else none

/-- join_into at two variables (the JoinInput impl for a variable reads its
recent and its stable batches — the tuples field of lib.rs): the collected
results are formed into a Relation and inserted into the output. -/
def join_into {β γ κ ρ : Type} [LinearOrder κ] [LinearOrder ρ] (input1 : Variable β)
    (input2 : Variable γ) (output : Variable ρ) (k1 : β → κ) (k2 : γ → κ)
    (logic : κ → β → γ → ρ) : Variable ρ :=
  output.insert (Relation.from_vec
    (joinResults k1 k2 logic input1.recent input1.tuples input2.recent input2.tuples))

/-- The filter closure of antijoin (join.rs lines 69-77): advance a cursor over
the static relation by galloping past keys below the current key and keep the
pair when the cursor head differs from the key; emit logic on kept pairs. -/
def antijoinLoop {κ ν ρ : Type} [LinearOrder κ] (logic : κ → ν → ρ) :
    List κ → List (κ × ν) → List ρ
  | _, [] => []
  | ts, kv :: rest =>
    if (gallop ts fun y => decide (y < kv.1)).head? ≠ some kv.1 then
      logic kv.1 kv.2 :: antijoinLoop logic (gallop ts fun y => decide (y < kv.1)) rest
    else antijoinLoop logic (gallop ts fun y => decide (y < kv.1)) rest

/-- antijoin (join.rs lines 62-80): filter the recent tuples of input1 to those
whose key is absent from the static relation, map them through logic, and
form the results into a Relation. -/
def antijoin {κ ν ρ : Type} [LinearOrder κ] [LinearOrder ρ] (recent1 : List (κ × ν))
    (input2 : List κ) (logic : κ → ν → ρ) : List ρ :=
  Relation.from_vec (antijoinLoop logic input2 recent1)

/-- Modelled from the spec: antijoin_into, called by from_antijoin in lib.rs
lines 210-217, is not under src/; per the spec the collected relation is
appended to the output variable's pending list. -/
def from_antijoin {κ ν ρ : Type} [LinearOrder κ] [LinearOrder ρ] (output : Variable ρ)
    (input1 : Variable (κ × ν)) (input2 : List κ) (logic : κ → ν → ρ) : Variable ρ :=
  output.insert (antijoin input1.recent input2 logic)

/-- The variable states a host can reach from a start state: any sequence of
inserts of valid (sorted) relations and of steps through changed. -/
inductive Reaches : Variable α → Variable α → Prop
  | refl (v : Variable α) : Reaches v v
  | insert (v w : Variable α) (r : List α) : Reaches v w → List.Sorted (· ≤ ·) r →
      Reaches v (w.insert r)
  | step (v w : Variable α) : Reaches v w → Reaches v (w.changed).1

/- ------------------------------------------------------------------ -/
/- Theorems -/
/- ------------------------------------------------------------------ -/

theorem mem_dedupAdj : ∀ {l : List α} {x : α}, x ∈ dedupAdj l ↔ x ∈ l
  | [], x => by simp [dedupAdj]
  | [a], x => by simp [dedupAdj]
  | a :: b :: rest, x => by
    have ih : x ∈ dedupAdj (b :: rest) ↔ x ∈ b :: rest := mem_dedupAdj
    by_cases h : a = b
    · have e : dedupAdj (a :: b :: rest) = dedupAdj (b :: rest) := by
        simp only [dedupAdj]; rw [if_pos h]
      rw [e, ih, h]
      simp only [List.mem_cons]
      tauto
    · have e : dedupAdj (a :: b :: rest) = a :: dedupAdj (b :: rest) := by
        simp only [dedupAdj]; rw [if_neg h]
      rw [e]
      simp only [List.mem_cons, ih]

theorem head?_dedupAdj : ∀ l : List α, (dedupAdj l).head? = l.head?
  | [] => rfl
  | [a] => rfl
  | a :: b :: rest => by
    by_cases h : a = b
    · have e : dedupAdj (a :: b :: rest) = dedupAdj (b :: rest) := by
        simp only [dedupAdj]; rw [if_pos h]
      rw [e, head?_dedupAdj (b :: rest), h]
      simp
    · have e : dedupAdj (a :: b :: rest) = a :: dedupAdj (b :: rest) := by
        simp only [dedupAdj]; rw [if_neg h]
      rw [e]
      simp

theorem chain'_lt_dedupAdj : ∀ {l : List α}, List.Chain' (· ≤ ·) l → List.Chain' (· < ·) (dedupAdj l)
  | [], _ => by simp [dedupAdj]
  | [a], _ => by simp [dedupAdj]
  | a :: b :: rest, h => by
    rw [List.chain'_cons'] at h
    by_cases hab : a = b
    · have e : dedupAdj (a :: b :: rest) = dedupAdj (b :: rest) := by
        simp only [dedupAdj]; rw [if_pos hab]
      rw [e]
      exact chain'_lt_dedupAdj h.2
    · have e : dedupAdj (a :: b :: rest) = a :: dedupAdj (b :: rest) := by
        simp only [dedupAdj]; rw [if_neg hab]
      rw [e, List.chain'_cons']
      refine ⟨?_, chain'_lt_dedupAdj h.2⟩
      intro y hy
      rw [head?_dedupAdj] at hy
      simp only [List.head?_cons, Option.mem_def, Option.some.injEq] at hy
      subst hy
      exact lt_of_le_of_ne (h.1 b (by simp)) hab

theorem sorted_lt_dedupAdj {l : List α} (h : List.Sorted (· ≤ ·) l) :
    List.Sorted (· < ·) (dedupAdj l) :=
  List.chain'_iff_pairwise.mp (chain'_lt_dedupAdj (List.chain'_iff_pairwise.mpr h))

theorem sorted_rustSort (l : List α) : List.Sorted (· ≤ ·) (rustSort l) :=
  List.sorted_insertionSort _ l

theorem perm_rustSort (l : List α) : List.Perm (rustSort l) l :=
  List.perm_insertionSort _ l

theorem mem_rustSort {l : List α} {x : α} : x ∈ rustSort l ↔ x ∈ l :=
  (perm_rustSort l).mem_iff

theorem sorted_lt_merge (a b : List α) : List.Sorted (· < ·) (Relation.merge a b) :=
  sorted_lt_dedupAdj (sorted_rustSort _)

theorem mem_merge {a b : List α} {x : α} :
    x ∈ Relation.merge a b ↔ x ∈ a ∨ x ∈ b := by
  simp [Relation.merge, mem_dedupAdj, mem_rustSort]

theorem nodup_of_sorted_lt {l : List α} (h : List.Sorted (· < ·) l) : l.Nodup :=
  h.imp ne_of_lt

theorem sorted_le_of_sorted_lt {l : List α} (h : List.Sorted (· < ·) l) :
    List.Sorted (· ≤ ·) l :=
  h.imp le_of_lt

theorem mem_from_vec {l : List α} {x : α} : x ∈ Relation.from_vec l ↔ x ∈ l := by
  simp [Relation.from_vec, mem_dedupAdj, mem_rustSort]

theorem take_tw {T : Type} (p : T → Bool) :
    ∀ l : List T, l.take (l.takeWhile p).length = l.takeWhile p
  | [] => rfl
  | a :: t => by
    by_cases hp : p a
    · simp [List.takeWhile_cons, hp, take_tw p t]
    · simp [List.takeWhile_cons, hp]

theorem drop_tw {T : Type} (p : T → Bool) :
    ∀ l : List T, l.drop (l.takeWhile p).length = l.dropWhile p
  | [] => rfl
  | a :: t => by
    by_cases hp : p a
    · simp [List.takeWhile_cons, List.dropWhile_cons, hp, drop_tw p t]
    · simp [List.takeWhile_cons, List.dropWhile_cons, hp]

theorem tw_drop {T : Type} (p : T → Bool) :
    ∀ (m : ℕ) (l : List T), m ≤ (l.takeWhile p).length →
      ((l.drop m).takeWhile p).length = (l.takeWhile p).length - m
  | 0, l, _ => by simp
  | m + 1, [], h => by simp at h
  | m + 1, a :: t, h => by
    by_cases hp : p a
    · simp only [List.takeWhile_cons, hp, if_true, List.length_cons] at h ⊢
      rw [List.drop_succ_cons, tw_drop p m t (by omega)]
      omega
    · simp [List.takeWhile_cons, hp] at h

theorem tw_le_length {T : Type} (p : T → Bool) (l : List T) :
    (l.takeWhile p).length ≤ l.length :=
  (List.takeWhile_prefix _).length_le

theorem true_of_lt_tw {T : Type} {p : T → Bool} :
    ∀ {s : List T} {i : ℕ} (hl : i < s.length), i < (s.takeWhile p).length →
      p (s.get ⟨i, hl⟩) = true
  | a :: t, 0, hl, hi => by
    by_cases hp : p a
    · simpa using hp
    · simp [List.takeWhile_cons, hp] at hi
  | a :: t, i + 1, hl, hi => by
    by_cases hp : p a
    · simp only [List.takeWhile_cons, hp, if_true, List.length_cons,
        Nat.add_lt_add_iff_right] at hi
      exact true_of_lt_tw (Nat.lt_of_succ_lt_succ hl) hi
    · simp [List.takeWhile_cons, hp] at hi

theorem Monotonic.of_sublist {T : Type} {p : T → Bool} {s t : List T}
    (hm : Monotonic p s) (hs : t.Sublist s) : Monotonic p t :=
  List.Pairwise.sublist hs hm

theorem Monotonic.drop {T : Type} {p : T → Bool} {s : List T}
    (hm : Monotonic p s) (m : ℕ) : Monotonic p (s.drop m) :=
  hm.of_sublist (List.drop_sublist m s)

theorem false_of_tw_le {T : Type} {p : T → Bool} {s : List T} (hm : Monotonic p s)
    {j : ℕ} (hj : j < s.length) (htw : (s.takeWhile p).length ≤ j) :
    p (s.get ⟨j, hj⟩) = false := by
  have htwlen : (s.takeWhile p).length < s.length := lt_of_le_of_lt htw hj
  have hd : s.dropWhile p ≠ [] := by
    rw [← drop_tw]
    intro e
    have he := congrArg List.length e
    simp only [List.length_drop, List.length_nil] at he
    omega
  have hfail : p ((s.dropWhile p).head hd) = false := by
    have h0 := List.head?_dropWhile_not p s
    rw [List.head?_eq_head hd] at h0
    simpa using h0
  have hget : (s.dropWhile p).head hd = s.get ⟨(s.takeWhile p).length, htwlen⟩ := by
    have e1 : s.dropWhile p = s.drop (s.takeWhile p).length := (drop_tw p s).symm
    have e3 := List.get_drop_eq_drop s (s.takeWhile p).length htwlen
    have e4 : s.dropWhile p
        = s.get ⟨(s.takeWhile p).length, htwlen⟩ :: s.drop ((s.takeWhile p).length + 1) := by
      rw [e1, ← e3]
      simp
    have h5 : (s.dropWhile p).head? = some (s.get ⟨(s.takeWhile p).length, htwlen⟩) := by
      rw [e4]
      rfl
    have h6 : (s.dropWhile p).head? = some ((s.dropWhile p).head hd) := List.head?_eq_head hd
    rw [h6] at h5
    exact Option.some.inj h5
  rcases eq_or_lt_of_le htw with hEq | hlt
  · subst hEq
    show p (s.get ⟨(s.takeWhile p).length, htwlen⟩) = false
    rw [← hget]
    exact hfail
  · cases hpj : p (s.get ⟨j, hj⟩) with
    | false => rfl
    | true =>
      exfalso
      have hpair := (List.pairwise_iff_get.mp hm) ⟨(s.takeWhile p).length, htwlen⟩ ⟨j, hj⟩ hlt
      have htrue := hpair hpj
      rw [← hget] at htrue
      rw [hfail] at htrue
      exact Bool.noConfusion htrue

theorem lt_tw_of_true {T : Type} {p : T → Bool} {s : List T} (hm : Monotonic p s)
    {i : ℕ} (hi : i < s.length) (hp : p (s.get ⟨i, hi⟩) = true) :
    i < (s.takeWhile p).length := by
  by_contra hc
  push_neg at hc
  rw [false_of_tw_le hm hi hc] at hp
  exact Bool.noConfusion hp

theorem gallopDoubling_fst_drop {T : Type} (q : T → Bool) (st : ℕ) (s : List T) :
    ∃ m, (gallopDoubling s q st).1 = s.drop m := by
  induction s, q, st using gallopDoubling.induct with
  | case1 s q st hg hp ih =>
    obtain ⟨m, hm⟩ := ih
    refine ⟨st + m, ?_⟩
    rw [gallopDoubling, dif_pos hg, if_pos hp, hm, List.drop_drop]
  | case2 s q st hg hp =>
    exact ⟨0, by rw [gallopDoubling, dif_pos hg, if_neg hp]; simp⟩
  | case3 s q st hg =>
    exact ⟨0, by rw [gallopDoubling, dif_neg hg]; simp⟩

theorem gallopHalving_drop {T : Type} (s : List T) (q : T → Bool) (st : ℕ) :
    ∃ m, gallopHalving s q st = s.drop m := by
  induction s, q, st using gallopHalving.induct with
  | case1 s q => exact ⟨0, by rw [gallopHalving]; simp⟩
  | case2 s q st hz ih =>
    obtain ⟨m, hm⟩ := ih
    rw [gallopHalving, if_neg hz]
    split_ifs at hm ⊢ with h1 h2
    · exact ⟨st + m, by rw [hm, List.drop_drop]⟩
    · exact ⟨m, hm⟩
    · exact ⟨m, hm⟩

theorem gallop_drop {T : Type} (s : List T) (q : T → Bool) :
    ∃ m, gallop s q = s.drop m := by
  match s with
  | [] => exact ⟨0, rfl⟩
  | a :: t =>
    by_cases hp : q a = true
    · obtain ⟨m1, h1⟩ := gallopDoubling_fst_drop q 1 (a :: t)
      obtain ⟨m2, h2⟩ := gallopHalving_drop (gallopDoubling (a :: t) q 1).1 q
        ((gallopDoubling (a :: t) q 1).2 / 2)
      refine ⟨m1 + (m2 + 1), ?_⟩
      have e : gallop (a :: t) q
          = (gallopHalving (gallopDoubling (a :: t) q 1).1 q
              ((gallopDoubling (a :: t) q 1).2 / 2)).drop 1 := by
        simp only [gallop]
        rw [if_pos hp]
      rw [e, h2, h1, List.drop_drop, List.drop_drop]
    · refine ⟨0, ?_⟩
      simp only [gallop]
      rw [if_neg hp]
      simp

theorem gallopDoubling_spec {T : Type} :
    ∀ (s : List T) (p : T → Bool) (step : ℕ), Monotonic p s → 0 < step →
      0 < (s.takeWhile p).length →
      ∃ m j, m < (s.takeWhile p).length ∧
        gallopDoubling s p step = (s.drop m, step * 2 ^ j) ∧
        ((s.drop m).takeWhile p).length ≤ step * 2 ^ j := by
  intro s p step
  induction s, p, step using gallopDoubling.induct with
  | case1 s p st hg hp ih =>
    intro hm hst htw
    have hsttw : st < (s.takeWhile p).length := lt_tw_of_true hm hg.2 hp
    have htwd : ((s.drop st).takeWhile p).length = (s.takeWhile p).length - st :=
      tw_drop p st s (le_of_lt hsttw)
    obtain ⟨m, j, hmlt, heq, hb⟩ := ih (hm.drop st) (by omega) (by rw [htwd]; omega)
    rw [htwd] at hmlt
    refine ⟨st + m, j + 1, by omega, ?_, ?_⟩
    · rw [gallopDoubling, dif_pos hg, if_pos hp, heq, List.drop_drop]
      have hpe : 2 * st * 2 ^ j = st * 2 ^ (j + 1) := by ring
      rw [hpe]
    · rw [List.drop_drop] at hb
      have hpow : st * 2 ^ (j + 1) = 2 * st * 2 ^ j := by ring
      rw [hpow]
      exact hb
  | case2 s p st hg hp =>
    intro hm hst htw
    have htws : (s.takeWhile p).length ≤ st := by
      by_contra hc
      push_neg at hc
      exact hp (true_of_lt_tw hg.2 hc)
    refine ⟨0, 0, htw, ?_, ?_⟩
    · rw [gallopDoubling, dif_pos hg, if_neg hp]
      simp
    · simpa using htws
  | case3 s p st hg =>
    intro hm hst htw
    have hlen : s.length ≤ st := by
      rcases Nat.lt_or_ge st s.length with hcase | hcase
      · exact absurd ⟨hst, hcase⟩ hg
      · exact hcase
    have htwlen := tw_le_length p s
    refine ⟨0, 0, htw, by rw [gallopDoubling, dif_neg hg]; simp, ?_⟩
    simp only [List.drop_zero, pow_zero, mul_one]
    omega

theorem gallopHalving_spec {T : Type} :
    ∀ (s : List T) (p : T → Bool) (step : ℕ), Monotonic p s →
      0 < (s.takeWhile p).length →
      (s.takeWhile p).length ≤ max (2 * step) 1 →
      (step = 0 ∨ ∃ i : ℕ, step = 2 ^ i) →
      ∃ m, m < (s.takeWhile p).length ∧ gallopHalving s p step = s.drop m ∧
        ((s.drop m).takeWhile p).length ≤ 1 := by
  intro s p step
  induction s, p, step using gallopHalving.induct with
  | case1 s p =>
    intro hm htw hb hpow
    refine ⟨0, htw, by rw [gallopHalving]; simp, ?_⟩
    simp only [List.drop_zero]
    omega
  | case2 s p st hz ih =>
    intro hm htw hb hpow
    have hpow2 : st / 2 = 0 ∨ ∃ i, st / 2 = 2 ^ i := by
      rcases hpow with h0 | ⟨i, hi⟩
      · exact absurd h0 hz
      · cases i with
        | zero =>
          left
          rw [hi]
          norm_num
        | succ i2 =>
          right
          refine ⟨i2, ?_⟩
          rw [hi, pow_succ]
          omega
    have hstform : st = 1 ∨ (2 ≤ st ∧ st = 2 * (st / 2)) := by
      rcases hpow with h0 | ⟨i, hi⟩
      · exact absurd h0 hz
      · cases i with
        | zero =>
          left
          rw [hi, pow_zero]
        | succ i2 =>
          right
          have h2 : (2:ℕ) ^ (i2 + 1) = 2 * 2 ^ i2 := by rw [pow_succ]; ring
          have h1 : 0 < 2 ^ i2 := pow_pos (by norm_num) i2
          omega
    rw [gallopHalving, if_neg hz]
    split_ifs at ih ⊢ with hlt hp
    · have hsttw : st < (s.takeWhile p).length := lt_tw_of_true hm hlt hp
      have htwd : ((s.drop st).takeWhile p).length = (s.takeWhile p).length - st :=
        tw_drop p st s (le_of_lt hsttw)
      have hb' : ((s.drop st).takeWhile p).length ≤ max (2 * (st / 2)) 1 := by
        rw [htwd]
        rcases hstform with hc | hc <;> (clear * - hc hb; omega)
      obtain ⟨m, hmlt, heq, hfin⟩ :=
        ih (hm.drop st) (by rw [htwd]; omega) hb' hpow2
      rw [htwd] at hmlt
      refine ⟨st + m, by omega, ?_, ?_⟩
      · rw [heq, List.drop_drop]
      · rw [List.drop_drop] at hfin
        exact hfin
    · have htws : (s.takeWhile p).length ≤ st := by
        by_contra hc
        push_neg at hc
        exact hp (true_of_lt_tw hlt hc)
      have hb'' : (s.takeWhile p).length ≤ max (2 * (st / 2)) 1 := by
        rcases hstform with hc | hc <;> (clear * - hc htws; omega)
      exact ih hm htw hb'' hpow2
    · have htws : (s.takeWhile p).length ≤ st :=
        le_trans (tw_le_length p s) (by omega)
      have hb'' : (s.takeWhile p).length ≤ max (2 * (st / 2)) 1 := by
        rcases hstform with hc | hc <;> (clear * - hc htws; omega)
      exact ih hm htw hb'' hpow2

theorem gallop_eq_dropWhile {T : Type} {p : T → Bool} {s : List T}
    (hm : Monotonic p s) : gallop s p = s.dropWhile p := by
  match s with
  | [] => rfl
  | a :: t =>
    by_cases hp : p a = true
    · have htw : 0 < ((a :: t).takeWhile p).length := by
        simp [List.takeWhile_cons, hp]
      obtain ⟨m1, j, hm1, heq1, hb1⟩ := gallopDoubling_spec (a :: t) p 1 hm one_pos htw
      have e : gallop (a :: t) p
          = (gallopHalving (gallopDoubling (a :: t) p 1).1 p
              ((gallopDoubling (a :: t) p 1).2 / 2)).drop 1 := by
        simp only [gallop]
        rw [if_pos hp]
      have e2 : gallop (a :: t) p
          = (gallopHalving ((a :: t).drop m1) p ((1 * 2 ^ j) / 2)).drop 1 := by
        rw [e, heq1]
      have hm1' : Monotonic p ((a :: t).drop m1) := hm.drop m1
      have htw1 : (((a :: t).drop m1).takeWhile p).length
          = ((a :: t).takeWhile p).length - m1 :=
        tw_drop p m1 (a :: t) (le_of_lt hm1)
      have hpowarg : (1 * 2 ^ j) / 2 = 0 ∨ ∃ i, (1 * 2 ^ j) / 2 = 2 ^ i := by
        cases j with
        | zero => left; norm_num
        | succ j2 =>
          right
          refine ⟨j2, ?_⟩
          rw [one_mul, pow_succ]
          omega
      have hbound1 : (((a :: t).drop m1).takeWhile p).length
          ≤ max (2 * ((1 * 2 ^ j) / 2)) 1 := by
        cases j with
        | zero =>
          simp only [pow_zero, mul_one, one_mul] at hb1 ⊢
          clear * - hb1
          omega
        | succ j2 =>
          have h2 : (2:ℕ) ^ (j2 + 1) = 2 * 2 ^ j2 := by rw [pow_succ]; ring
          simp only [one_mul] at hb1 ⊢
          clear * - hb1 h2
          omega
      have htwpos1 : 0 < (((a :: t).drop m1).takeWhile p).length := by
        rw [htw1]
        clear * - hm1
        omega
      obtain ⟨m2, hm2, heq2, hb2⟩ :=
        gallopHalving_spec ((a :: t).drop m1) p ((1 * 2 ^ j) / 2) hm1' htwpos1 hbound1 hpowarg
      have htw2 : ((((a :: t).drop m1).drop m2).takeWhile p).length
          = (((a :: t).drop m1).takeWhile p).length - m2 :=
        tw_drop p m2 ((a :: t).drop m1) (le_of_lt hm2)
      rw [List.drop_drop] at htw2 hb2
      have hK : m1 + m2 + 1 = ((a :: t).takeWhile p).length := by
        clear * - htw1 htw2 hb2 hm2 hm1
        omega
      rw [e2, heq2, List.drop_drop, List.drop_drop, ← drop_tw p (a :: t)]
      have hK2 : m1 + (m2 + 1) = ((a :: t).takeWhile p).length := by
        clear * - hK
        omega
      rw [hK2]
    · simp only [gallop]
      rw [if_neg hp, List.dropWhile_cons, if_neg (by simp [hp])]

theorem gallop_length_lt {T : Type} {q : T → Bool} {a : T} {t : List T}
    (hq : q a = true) : (gallop (a :: t) q).length < (a :: t).length := by
  obtain ⟨m1, h1⟩ := gallopDoubling_fst_drop q 1 (a :: t)
  obtain ⟨m2, h2⟩ := gallopHalving_drop (gallopDoubling (a :: t) q 1).1 q
    ((gallopDoubling (a :: t) q 1).2 / 2)
  have e : gallop (a :: t) q
      = (gallopHalving (gallopDoubling (a :: t) q 1).1 q
          ((gallopDoubling (a :: t) q 1).2 / 2)).drop 1 := by
    simp only [gallop]
    rw [if_pos hq]
  rw [e, h2, h1, List.drop_drop, List.drop_drop]
  simp only [List.length_drop, List.length_cons]
  omega

/-- C7: for every slice s and predicate p monotonic on s, gallop returns a
suffix of s; every element strictly before the suffix satisfies p; the first
element of the suffix, if any, does not satisfy p; gallop on the empty slice
returns the empty slice; and when p fails on the head the slice is returned
unchanged. -/
theorem C7_gallop_spec {T : Type} (s : List T) (p : T → Bool) (hm : Monotonic p s) :
    (∃ k, k ≤ s.length ∧ gallop s p = s.drop k
      ∧ (∀ (i : ℕ) (hi : i < s.length), i < k → p (s.get ⟨i, hi⟩) = true)
      ∧ (∀ x, (gallop s p).head? = some x → p x = false))
    ∧ gallop ([] : List T) p = []
    ∧ (∀ hne : s ≠ [], p (s.head hne) = false → gallop s p = s) := by
  refine ⟨⟨(s.takeWhile p).length, tw_le_length p s, ?_, ?_, ?_⟩, rfl, ?_⟩
  · exact (gallop_eq_dropWhile hm).trans (drop_tw p s).symm
  · intro i hi hik
    exact true_of_lt_tw hi hik
  · intro x hx
    rw [gallop_eq_dropWhile hm] at hx
    have h0 := List.head?_dropWhile_not p s
    rw [hx] at h0
    simpa using h0
  · intro hne hhd
    cases s with
    | nil => exact absurd rfl hne
    | cons a t =>
      simp only [List.head_cons] at hhd
      simp only [gallop]
      rw [if_neg (by simp [hhd])]

/-- C7 witness: the gallop specification applied at a concrete slice with a
concrete monotonic predicate. -/
theorem C7_gallop_spec_witness :
    Monotonic (fun x : ℕ => decide (x = 0)) [0, 1]
    ∧ ((∃ k, k ≤ ([0, 1] : List ℕ).length
        ∧ gallop [0, 1] (fun x : ℕ => decide (x = 0)) = ([0, 1] : List ℕ).drop k
        ∧ (∀ (i : ℕ) (hi : i < ([0, 1] : List ℕ).length), i < k →
            (fun x : ℕ => decide (x = 0)) (([0, 1] : List ℕ).get ⟨i, hi⟩) = true)
        ∧ (∀ x, (gallop [0, 1] fun x : ℕ => decide (x = 0)).head? = some x →
            (fun x : ℕ => decide (x = 0)) x = false))
      ∧ gallop ([] : List ℕ) (fun x : ℕ => decide (x = 0)) = []
      ∧ (∀ hne : ([0, 1] : List ℕ) ≠ [],
          (fun x : ℕ => decide (x = 0)) (([0, 1] : List ℕ).head hne) = false →
            gallop [0, 1] (fun x : ℕ => decide (x = 0)) = [0, 1])) :=
  ⟨by decide, C7_gallop_spec [0, 1] (fun x : ℕ => decide (x = 0)) (by decide)⟩

/-- C9 counterexample: gallop contains no assertion and never aborts. On the
non-monotonic predicate (x different from 2) over [0, 1, 2, 3] it returns
normally with the empty suffix, silently having skipped the element 2 on which
the predicate is false, instead of failing with an assertion. -/
theorem C9_counterexample :
    ¬ Monotonic (fun x : ℕ => decide (x ≠ 2)) [0, 1, 2, 3]
    ∧ gallop [0, 1, 2, 3] (fun x : ℕ => decide (x ≠ 2)) = []
    ∧ (2 ∈ ([0, 1, 2, 3] : List ℕ) ∧ (fun x : ℕ => decide (x ≠ 2)) 2 = false) := by
  refine ⟨by decide, ?_, by decide⟩
  simp [gallop, gallopDoubling, gallopHalving]

/-- C9 amended: gallop performs no monotonicity check and never aborts. For
every slice and every predicate, monotonic or not, it returns normally, and
its value is a suffix of the slice; when the predicate is not monotonic the
documented postcondition can be silently violated, but no assertion fails. -/
theorem C9_gallop_no_abort {T : Type} (s : List T) (p : T → Bool) :
    ∃ m, gallop s p = s.drop m :=
  gallop_drop s p

/-- C10: the join kernel terminates. In every iteration on nonempty slices,
the slice advanced by the iteration strictly shrinks: gallop advances at least
one element whenever the predicate holds on the head of the slice (first
conjunct), so both gallop branches strictly shrink the galloped slice, and the
equal-key branch strictly shrinks both slices because each run has at least
one element; join_helper recurses on exactly these smaller slices. -/
theorem C10_join_helper_terminates {β γ κ ρ : Type} [LinearOrder κ] (k1 : β → κ)
    (k2 : γ → κ) (logic : κ → β → γ → ρ) (a : β) (t1 : List β) (b : γ) (t2 : List γ) :
    (∀ (q : β → Bool), q a = true → (gallop (a :: t1) q).length < (a :: t1).length)
    ∧ (k1 a < k2 b →
        join_helper k1 k2 logic (a :: t1) (b :: t2)
          = join_helper k1 k2 logic (gallop (a :: t1) fun x => decide (k1 x < k2 b)) (b :: t2)
        ∧ (gallop (a :: t1) fun x => decide (k1 x < k2 b)).length < (a :: t1).length)
    ∧ (k2 b < k1 a →
        join_helper k1 k2 logic (a :: t1) (b :: t2)
          = join_helper k1 k2 logic (a :: t1) (gallop (b :: t2) fun x => decide (k2 x < k1 a))
        ∧ (gallop (b :: t2) fun x => decide (k2 x < k1 a)).length < (b :: t2).length)
    ∧ (k1 a = k2 b →
        ((a :: t1).drop (((a :: t1).takeWhile fun x => decide (k1 x = k1 a)).length)).length
            < (a :: t1).length
        ∧ ((b :: t2).drop (((b :: t2).takeWhile fun x => decide (k2 x = k2 b)).length)).length
            < (b :: t2).length) := by
  refine ⟨fun q hq => gallop_length_lt hq, fun hlt => ⟨?_, ?_⟩, fun hgt => ⟨?_, ?_⟩, fun heq => ⟨?_, ?_⟩⟩
  · rw [join_helper, dif_pos hlt]
  · exact gallop_length_lt (by simp [hlt])
  · rw [join_helper, dif_neg (by exact fun hc => absurd hgt (not_lt_of_lt hc)), dif_pos hgt]
  · exact gallop_length_lt (by simp [hgt])
  · have hc1 : 0 < (((a :: t1).takeWhile fun x => decide (k1 x = k1 a)).length) := by
      simp [List.takeWhile_cons]
    simp only [List.length_drop, List.length_cons]
    omega
  · have hc2 : 0 < (((b :: t2).takeWhile fun x => decide (k2 x = k2 b)).length) := by
      simp [List.takeWhile_cons]
    simp only [List.length_drop, List.length_cons]
    omega

/-- C10 witness: the termination measure facts at concrete slices, through the
gallop branch (with an always-true predicate) and the equal-key branch. -/
theorem C10_join_helper_terminates_witness :
    ((gallop [0] (fun _ : ℕ => true)).length < ([0] : List ℕ).length)
    ∧ ((([0] : List ℕ).drop ((([0] : List ℕ).takeWhile fun x => decide (id x = id 0)).length)).length
          < ([0] : List ℕ).length
        ∧ (([0] : List ℕ).drop ((([0] : List ℕ).takeWhile fun x => decide (id x = id 0)).length)).length
          < ([0] : List ℕ).length) :=
  ⟨(C10_join_helper_terminates id id (fun k x y => k + x + y) 0 [] 0 []).1 (fun _ => true) rfl,
    (C10_join_helper_terminates id id (fun k x y => k + x + y) 0 [] 0 []).2.2.2 rfl⟩

/-- C5: for every pair of relation element vectors a and b, merge is total (it
is a total function of its inputs) and returns a sorted, duplicate-free vector
whose elements are exactly the union of the elements of a and b. -/
theorem C5_merge_union (a b : List α) :
    List.Sorted (· < ·) (Relation.merge a b) ∧ (Relation.merge a b).Nodup ∧
      ∀ x, x ∈ Relation.merge a b ↔ x ∈ a ∨ x ∈ b :=
  ⟨sorted_lt_merge a b, nodup_of_sorted_lt (sorted_lt_merge a b), fun _ => mem_merge⟩

/-- C4 counterexample: constructing a Relation from the iterable [0, 0] keeps
both copies of 0 (the From impl in lib.rs sorts but does not dedup), so the
result is not strictly ascending, contradicting the claim. -/
theorem C4_counterexample :
    Relation.fromIterator [(0 : ℕ), 0] = [0, 0] ∧
      ¬ List.Sorted (· < ·) (Relation.fromIterator [(0 : ℕ), 0]) := by
  refine ⟨rfl, fun h => ?_⟩
  have e : Relation.fromIterator [(0 : ℕ), 0] = [0, 0] := rfl
  have hnd : ([0, 0] : List ℕ).Nodup := e ▸ nodup_of_sorted_lt h
  simp at hnd

/-- C4 amended: constructing a Relation from a finite iterable sorts the
elements ascending (the result is a sorted permutation of the input) but does
not remove duplicates. -/
theorem C4_fromIterator_sorted (l : List α) :
    List.Sorted (· ≤ ·) (Relation.fromIterator l) ∧ List.Perm (Relation.fromIterator l) l :=
  ⟨sorted_rustSort l, perm_rustSort l⟩

theorem flatMap_congr {A B : Type} {f g : A → List B} :
    ∀ {l : List A}, (∀ x ∈ l, f x = g x) → l.flatMap f = l.flatMap g
  | [], _ => rfl
  | a :: t, h => by
    simp only [List.flatMap_cons]
    rw [h a (by simp), flatMap_congr (fun x hx => h x (by simp [hx]))]

theorem filter_eq_takeWhile_key {γ κ : Type} [LinearOrder κ] (k2 : γ → κ) (c : κ) :
    ∀ (s2 : List γ), s2.Pairwise (fun x y => k2 x ≤ k2 y) → (∀ y ∈ s2, c ≤ k2 y) →
      s2.filter (fun y => decide (k2 y = c)) = s2.takeWhile (fun y => decide (k2 y = c))
  | [], _, _ => rfl
  | y :: t, hs, hc => by
    rw [List.pairwise_cons] at hs
    by_cases hy : k2 y = c
    · have ht := filter_eq_takeWhile_key k2 c t hs.2 (fun z hz => hc z (by simp [hz]))
      simp [List.filter_cons, List.takeWhile_cons, hy, ht]
    · have hlt : c < k2 y := lt_of_le_of_ne (hc y (by simp)) (fun e => hy e.symm)
      have hfil : t.filter (fun z => decide (k2 z = c)) = [] := by
        rw [List.filter_eq_nil_iff]
        intro z hz
        have hyz : k2 y ≤ k2 z := hs.1 z hz
        simp only [decide_eq_true_eq]
        intro e
        rw [e] at hyz
        exact absurd (lt_of_lt_of_le hlt hyz) (lt_irrefl c)
      simp [List.filter_cons, List.takeWhile_cons, hy, hfil]

theorem dropWhile_key_gt {β κ : Type} [LinearOrder κ] (k1 : β → κ) (a : β) (t1 : List β)
    (hs : (a :: t1).Pairwise fun x y => k1 x ≤ k1 y) :
    ∀ x ∈ (a :: t1).dropWhile (fun z => decide (k1 z = k1 a)), k1 a < k1 x := by
  intro x hx
  have hall : ∀ z ∈ (a :: t1), k1 a ≤ k1 z := by
    intro z hz
    rcases List.mem_cons.mp hz with rfl | hz
    · exact le_rfl
    · exact (List.pairwise_cons.mp hs).1 z hz
  cases hdwc : (a :: t1).dropWhile (fun z => decide (k1 z = k1 a)) with
  | nil =>
    rw [hdwc] at hx
    simp at hx
  | cons d rest =>
    have hsub : ((a :: t1).dropWhile (fun z => decide (k1 z = k1 a))).Sublist (a :: t1) :=
      List.dropWhile_sublist _
    have hdfail : ¬ (k1 d = k1 a) := by
      have h0 := List.head?_dropWhile_not (fun z => decide (k1 z = k1 a)) (a :: t1)
      rw [hdwc] at h0
      simpa using h0
    have hdmem : d ∈ (a :: t1) := hsub.mem (by rw [hdwc]; simp)
    have hdlt : k1 a < k1 d := lt_of_le_of_ne (hall d hdmem) (fun e => hdfail e.symm)
    rw [hdwc] at hx
    rcases List.mem_cons.mp hx with rfl | hxr
    · exact hdlt
    · have hpdw := List.Pairwise.sublist hsub hs
      rw [hdwc, List.pairwise_cons] at hpdw
      exact lt_of_lt_of_le hdlt (hpdw.1 x hxr)

theorem matchResults_nil_right {β γ κ ρ : Type} [DecidableEq κ] (k1 : β → κ) (k2 : γ → κ)
    (logic : κ → β → γ → ρ) (s1 : List β) :
    matchResults k1 k2 logic s1 [] = [] := by
  simp [matchResults]

theorem matchResults_append_left {β γ κ ρ : Type} [DecidableEq κ] (k1 : β → κ) (k2 : γ → κ)
    (logic : κ → β → γ → ρ) (u v : List β) (s2 : List γ) :
    matchResults k1 k2 logic (u ++ v) s2
      = matchResults k1 k2 logic u s2 ++ matchResults k1 k2 logic v s2 := by
  simp [matchResults, List.flatMap_append]

theorem matchResults_equal_split {β γ κ ρ : Type} [LinearOrder κ] (k1 : β → κ)
    (k2 : γ → κ) (logic : κ → β → γ → ρ) (a : β) (t1 : List β) (b : γ) (t2 : List γ)
    (hs1 : (a :: t1).Pairwise fun x y => k1 x ≤ k1 y)
    (hs2 : (b :: t2).Pairwise fun x y => k2 x ≤ k2 y)
    (hk : k1 a = k2 b) :
    matchResults k1 k2 logic (a :: t1) (b :: t2)
      = ((a :: t1).take (((a :: t1).takeWhile fun x => decide (k1 x = k1 a)).length)).flatMap
          (fun x => ((b :: t2).take (((b :: t2).takeWhile fun x => decide (k2 x = k2 b)).length)).map
            (fun y => logic (k1 a) x y))
        ++ matchResults k1 k2 logic
            ((a :: t1).drop (((a :: t1).takeWhile fun x => decide (k1 x = k1 a)).length))
            ((b :: t2).drop (((b :: t2).takeWhile fun x => decide (k2 x = k2 b)).length)) := by
  have hall2 : ∀ y ∈ (b :: t2), k2 b ≤ k2 y := by
    intro y hy
    rcases List.mem_cons.mp hy with rfl | hy
    · exact le_rfl
    · exact (List.pairwise_cons.mp hs2).1 y hy
  rw [take_tw, take_tw, drop_tw, drop_tw]
  have hsplit := matchResults_append_left k1 k2 logic
    ((a :: t1).takeWhile fun x => decide (k1 x = k1 a))
    ((a :: t1).dropWhile fun x => decide (k1 x = k1 a)) (b :: t2)
  rw [List.takeWhile_append_dropWhile] at hsplit
  rw [hsplit]
  congr 1
  · -- the takeWhile part of s1 against s2 is exactly the cross product with the
    -- equal-key run of s2
    rw [matchResults]
    apply flatMap_congr
    intro x hx
    have hxk : k1 x = k1 a := by simpa using List.mem_takeWhile_imp hx
    have hfilter : (b :: t2).filter (fun y => decide (k2 y = k1 x))
        = (b :: t2).takeWhile (fun y => decide (k2 y = k2 b)) := by
      rw [hxk, hk]
      exact filter_eq_takeWhile_key k2 (k2 b) (b :: t2) hs2 hall2
    rw [hfilter, hxk]
  · -- the dropWhile part of s1 matches nothing in the equal-key run of s2
    rw [matchResults, matchResults]
    apply flatMap_congr
    intro x hx
    have hxgt : k1 a < k1 x := dropWhile_key_gt k1 a t1 hs1 x hx
    have e2 : (b :: t2) = ((b :: t2).takeWhile fun y => decide (k2 y = k2 b))
        ++ ((b :: t2).dropWhile fun y => decide (k2 y = k2 b)) :=
      (List.takeWhile_append_dropWhile _ _).symm
    conv_lhs => rw [e2]
    rw [List.filter_append]
    have hnil : (((b :: t2).takeWhile fun y => decide (k2 y = k2 b)).filter
        (fun y => decide (k2 y = k1 x))) = [] := by
      rw [List.filter_eq_nil_iff]
      intro y hy
      have hyk : k2 y = k2 b := by simpa using List.mem_takeWhile_imp hy
      simp only [decide_eq_true_eq]
      intro e
      rw [hyk, ← hk] at e
      exact absurd e (ne_of_lt hxgt)
    rw [hnil, List.nil_append]

theorem join_helper_eq_matchResults {β γ κ ρ : Type} [LinearOrder κ] (k1 : β → κ)
    (k2 : γ → κ) (logic : κ → β → γ → ρ) :
    ∀ (s1 : List β) (s2 : List γ),
      s1.Pairwise (fun x y => k1 x ≤ k1 y) → s2.Pairwise (fun x y => k2 x ≤ k2 y) →
      join_helper k1 k2 logic s1 s2 = matchResults k1 k2 logic s1 s2 := by
  intro s1 s2
  induction s1, s2 using join_helper.induct k1 k2 logic with
  | case1 s2 =>
    intro _ _
    rw [join_helper]
    simp [matchResults]
  | case2 s1 =>
    intro _ _
    rw [join_helper]
    simp [matchResults]
  | case3 a t1 b t2 hlt ih =>
    intro hs1 hs2
    have hmono : Monotonic (fun x => decide (k1 x < k2 b)) (a :: t1) := by
      refine hs1.imp ?_
      intro x y hxy hy
      simp only [decide_eq_true_eq] at hy ⊢
      exact lt_of_le_of_lt hxy hy
    have hgal := gallop_eq_dropWhile hmono
    rw [join_helper, dif_pos hlt, hgal]
    rw [hgal] at ih
    have hs1' : ((a :: t1).dropWhile fun x => decide (k1 x < k2 b)).Pairwise
        (fun x y => k1 x ≤ k1 y) :=
      List.Pairwise.sublist (List.dropWhile_sublist _) hs1
    rw [ih hs1' hs2]
    have hsplit := matchResults_append_left k1 k2 logic
      ((a :: t1).takeWhile fun x => decide (k1 x < k2 b))
      ((a :: t1).dropWhile fun x => decide (k1 x < k2 b)) (b :: t2)
    rw [List.takeWhile_append_dropWhile] at hsplit
    rw [hsplit]
    have hnil : matchResults k1 k2 logic
        ((a :: t1).takeWhile fun x => decide (k1 x < k2 b)) (b :: t2) = [] := by
      rw [matchResults]
      rw [List.flatMap_eq_nil_iff]
      intro x hx
      have hxlt : k1 x < k2 b := by simpa using List.mem_takeWhile_imp hx
      have hfil : ((b :: t2).filter fun y => decide (k2 y = k1 x)) = [] := by
        rw [List.filter_eq_nil_iff]
        intro y hy
        have hble : k2 b ≤ k2 y := by
          rcases List.mem_cons.mp hy with rfl | hym
          · exact le_rfl
          · exact (List.pairwise_cons.mp hs2).1 y hym
        simp only [decide_eq_true_eq]
        intro e
        rw [e] at hble
        exact absurd (lt_of_le_of_lt hble hxlt) (lt_irrefl (k2 b))
      rw [hfil]
      rfl
    rw [hnil, List.nil_append]
  | case4 a t1 b t2 hnlt hgt ih =>
    intro hs1 hs2
    have hmono : Monotonic (fun y => decide (k2 y < k1 a)) (b :: t2) := by
      refine hs2.imp ?_
      intro x y hxy hy
      simp only [decide_eq_true_eq] at hy ⊢
      exact lt_of_le_of_lt hxy hy
    have hgal := gallop_eq_dropWhile hmono
    rw [join_helper, dif_neg hnlt, dif_pos hgt, hgal]
    rw [hgal] at ih
    have hs2' : ((b :: t2).dropWhile fun y => decide (k2 y < k1 a)).Pairwise
        (fun x y => k2 x ≤ k2 y) :=
      List.Pairwise.sublist (List.dropWhile_sublist _) hs2
    rw [ih hs1 hs2']
    rw [matchResults, matchResults]
    apply flatMap_congr
    intro x hx
    have hax : k1 a ≤ k1 x := by
      rcases List.mem_cons.mp hx with rfl | hxm
      · exact le_rfl
      · exact (List.pairwise_cons.mp hs1).1 x hxm
    have e2 : (b :: t2) = ((b :: t2).takeWhile fun y => decide (k2 y < k1 a))
        ++ ((b :: t2).dropWhile fun y => decide (k2 y < k1 a)) :=
      (List.takeWhile_append_dropWhile _ _).symm
    conv_rhs => rw [e2]
    rw [List.filter_append]
    have hnil : (((b :: t2).takeWhile fun y => decide (k2 y < k1 a)).filter
        (fun y => decide (k2 y = k1 x))) = [] := by
      rw [List.filter_eq_nil_iff]
      intro y hy
      have hylt : k2 y < k1 a := by simpa using List.mem_takeWhile_imp hy
      simp only [decide_eq_true_eq]
      intro e
      rw [e] at hylt
      exact absurd (lt_of_lt_of_le hylt hax) (lt_irrefl (k1 x))
    rw [hnil, List.nil_append]
  | case5 a t1 b t2 hnlt hngt ih =>
    intro hs1 hs2
    have hk : k1 a = k2 b := le_antisymm (not_lt.mp hngt) (not_lt.mp hnlt)
    have hs1' : ((a :: t1).drop (((a :: t1).takeWhile fun x => decide (k1 x = k1 a)).length)).Pairwise
        (fun x y => k1 x ≤ k1 y) :=
      List.Pairwise.sublist (List.drop_sublist _ _) hs1
    have hs2' : ((b :: t2).drop (((b :: t2).takeWhile fun x => decide (k2 x = k2 b)).length)).Pairwise
        (fun x y => k2 x ≤ k2 y) :=
      List.Pairwise.sublist (List.drop_sublist _ _) hs2
    rw [join_helper, dif_neg hnlt, dif_neg hngt, ih hs1' hs2',
      matchResults_equal_split k1 k2 logic a t1 b t2 hs1 hs2 hk]

theorem mem_matchResults {β γ κ ρ : Type} [DecidableEq κ] {k1 : β → κ} {k2 : γ → κ}
    {logic : κ → β → γ → ρ} {s1 : List β} {s2 : List γ} {r : ρ} :
    r ∈ matchResults k1 k2 logic s1 s2
      ↔ ∃ x ∈ s1, ∃ y ∈ s2, k2 y = k1 x ∧ r = logic (k1 x) x y := by
  simp only [matchResults, List.mem_flatMap, List.mem_map, List.mem_filter,
    decide_eq_true_eq]
  constructor
  · rintro ⟨x, hx, y, ⟨hy, hk⟩, hr⟩
    exact ⟨x, hx, y, hy, hk, hr.symm⟩
  · rintro ⟨x, hx, y, hy, hk, hr⟩
    exact ⟨x, hx, y, ⟨hy, hk⟩, hr.symm⟩

/-- C1: a join (from_join / join_into) on inputs whose recent and stable views
are sorted by key and duplicate-free collects exactly the matches
logic(k, x, y) with key1 x = key2 y = k over the three regions recent1 against
every stable batch of input2, every stable batch of input1 against recent2,
and recent1 against recent2 — no pair with both elements stable is emitted —
and the collected results are formed into a Relation that is appended to the
output variable's to_add list. -/
theorem C1_join_regions {β γ κ ρ : Type} [LinearOrder κ] [LinearOrder ρ]
    (input1 : Variable β) (input2 : Variable γ) (output : Variable ρ)
    (k1 : β → κ) (k2 : γ → κ) (logic : κ → β → γ → ρ)
    (hr1 : input1.recent.Pairwise fun x y => k1 x ≤ k1 y)
    (hr2 : input2.recent.Pairwise fun x y => k2 x ≤ k2 y)
    (hb1 : ∀ b1 ∈ input1.tuples, b1.Pairwise fun x y => k1 x ≤ k1 y)
    (hb2 : ∀ b2 ∈ input2.tuples, b2.Pairwise fun x y => k2 x ≤ k2 y)
    (hn1 : input1.recent.Nodup) (hn2 : input2.recent.Nodup)
    (hnb1 : ∀ b1 ∈ input1.tuples, b1.Nodup) (hnb2 : ∀ b2 ∈ input2.tuples, b2.Nodup) :
    join_into input1 input2 output k1 k2 logic
      = { output with to_add := output.to_add
          ++ [Relation.from_vec (joinResults k1 k2 logic input1.recent input1.tuples
                input2.recent input2.tuples)] }
    ∧ ∀ r, r ∈ joinResults k1 k2 logic input1.recent input1.tuples input2.recent input2.tuples
        ↔ ((∃ b2 ∈ input2.tuples, ∃ x ∈ input1.recent, ∃ y ∈ b2,
              k2 y = k1 x ∧ r = logic (k1 x) x y)
          ∨ (∃ b1 ∈ input1.tuples, ∃ x ∈ b1, ∃ y ∈ input2.recent,
              k2 y = k1 x ∧ r = logic (k1 x) x y)
          ∨ (∃ x ∈ input1.recent, ∃ y ∈ input2.recent,
              k2 y = k1 x ∧ r = logic (k1 x) x y)) := by
  refine ⟨rfl, fun r => ?_⟩
  have hregion2 : ∀ b2 ∈ input2.tuples,
      join_helper k1 k2 logic input1.recent b2 = matchResults k1 k2 logic input1.recent b2 :=
    fun b2 hb => join_helper_eq_matchResults k1 k2 logic _ _ hr1 (hb2 b2 hb)
  have hregion1 : ∀ b1 ∈ input1.tuples,
      join_helper k1 k2 logic b1 input2.recent = matchResults k1 k2 logic b1 input2.recent :=
    fun b1 hb => join_helper_eq_matchResults k1 k2 logic _ _ (hb1 b1 hb) hr2
  have hrr : join_helper k1 k2 logic input1.recent input2.recent
      = matchResults k1 k2 logic input1.recent input2.recent :=
    join_helper_eq_matchResults k1 k2 logic _ _ hr1 hr2
  rw [joinResults]
  simp only [List.mem_append, List.mem_flatMap]
  constructor
  · rintro ((⟨b2, hb, hr⟩ | ⟨b1, hb, hr⟩) | hr)
    · left
      rw [hregion2 b2 hb] at hr
      exact ⟨b2, hb, mem_matchResults.mp hr⟩
    · right
      left
      rw [hregion1 b1 hb] at hr
      exact ⟨b1, hb, mem_matchResults.mp hr⟩
    · right
      right
      rw [hrr] at hr
      exact mem_matchResults.mp hr
  · rintro (⟨b2, hb, hx⟩ | ⟨b1, hb, hx⟩ | hx)
    · left
      left
      refine ⟨b2, hb, ?_⟩
      rw [hregion2 b2 hb]
      exact mem_matchResults.mpr hx
    · left
      right
      refine ⟨b1, hb, ?_⟩
      rw [hregion1 b1 hb]
      exact mem_matchResults.mpr hx
    · right
      rw [hrr]
      exact mem_matchResults.mpr hx

/-- C1 witness: a concrete join of two variables with identity keys, the
sortedness and distinctness hypotheses on its views checked by decide. -/
theorem C1_join_regions_witness :
    (join_into (⟨true, "i1", [[1]], [2], []⟩ : Variable ℕ)
        (⟨true, "i2", [[2]], [1], []⟩ : Variable ℕ)
        (⟨true, "o", [], [], []⟩ : Variable ℕ) id id (fun _ x y => 100 * x + y)
      = { (⟨true, "o", [], [], []⟩ : Variable ℕ) with to_add :=
            (⟨true, "o", [], [], []⟩ : Variable ℕ).to_add
            ++ [Relation.from_vec (joinResults id id (fun _ x y => 100 * x + y)
                  (⟨true, "i1", [[1]], [2], []⟩ : Variable ℕ).recent
                  (⟨true, "i1", [[1]], [2], []⟩ : Variable ℕ).tuples
                  (⟨true, "i2", [[2]], [1], []⟩ : Variable ℕ).recent
                  (⟨true, "i2", [[2]], [1], []⟩ : Variable ℕ).tuples)] })
    ∧ ∀ r, r ∈ joinResults id id (fun _ x y => 100 * x + y)
          (⟨true, "i1", [[1]], [2], []⟩ : Variable ℕ).recent
          (⟨true, "i1", [[1]], [2], []⟩ : Variable ℕ).tuples
          (⟨true, "i2", [[2]], [1], []⟩ : Variable ℕ).recent
          (⟨true, "i2", [[2]], [1], []⟩ : Variable ℕ).tuples
        ↔ ((∃ b2 ∈ (⟨true, "i2", [[2]], [1], []⟩ : Variable ℕ).tuples,
              ∃ x ∈ (⟨true, "i1", [[1]], [2], []⟩ : Variable ℕ).recent, ∃ y ∈ b2,
                id y = id x ∧ r = 100 * x + y)
          ∨ (∃ b1 ∈ (⟨true, "i1", [[1]], [2], []⟩ : Variable ℕ).tuples,
              ∃ x ∈ b1, ∃ y ∈ (⟨true, "i2", [[2]], [1], []⟩ : Variable ℕ).recent,
                id y = id x ∧ r = 100 * x + y)
          ∨ (∃ x ∈ (⟨true, "i1", [[1]], [2], []⟩ : Variable ℕ).recent,
              ∃ y ∈ (⟨true, "i2", [[2]], [1], []⟩ : Variable ℕ).recent,
                id y = id x ∧ r = 100 * x + y)) :=
  C1_join_regions (⟨true, "i1", [[1]], [2], []⟩ : Variable ℕ)
    (⟨true, "i2", [[2]], [1], []⟩ : Variable ℕ) (⟨true, "o", [], [], []⟩ : Variable ℕ)
    id id (fun _ x y => 100 * x + y)
    (by decide) (by decide) (by decide) (by decide)
    (by decide) (by decide) (by decide) (by decide)

/-- C2: for every variable in any state, changed returns true exactly when the
recent stratum it establishes is non-empty, and after it returns the to_add
list is empty. -/
theorem C2_changed_flag (v : Variable α) :
    ((v.changed).2 = true ↔ (v.changed).1.recent ≠ []) ∧ (v.changed).1.to_add = [] := by
  constructor
  · simp only [Variable.changed]
    simp [List.isEmpty_iff]
  · simp only [Variable.changed]

theorem sorted_lt_foldl_merge :
    ∀ (bs : List (List α)) (acc : List α), List.Sorted (· < ·) acc →
      List.Sorted (· < ·) (bs.foldl Relation.merge acc)
  | [], _, h => h
  | b :: bs, acc, _ => by
    simp only [List.foldl_cons]
    exact sorted_lt_foldl_merge bs _ (sorted_lt_merge _ _)

theorem mem_foldl_merge :
    ∀ (bs : List (List α)) (acc : List α) (x : α),
      x ∈ bs.foldl Relation.merge acc ↔ x ∈ acc ∨ ∃ b ∈ bs, x ∈ b
  | [], acc, x => by simp
  | b :: bs, acc, x => by
    simp only [List.foldl_cons, mem_foldl_merge bs _ x, mem_merge, List.mem_cons]
    constructor
    · rintro ((hx | hx) | ⟨b2, hb2, hx⟩)
      · exact Or.inl hx
      · exact Or.inr ⟨b, Or.inl rfl, hx⟩
      · exact Or.inr ⟨b2, Or.inr hb2, hx⟩
    · rintro (hx | ⟨b2, (rfl | hb2), hx⟩)
      · exact Or.inl (Or.inl hx)
      · exact Or.inl (Or.inr hx)
      · exact Or.inr ⟨b2, hb2, hx⟩

/-- C8: complete asserts that recent and to_add are empty — when either is
non-empty the assertion fails (modelled as none) — and when both are empty it
returns a single sorted, duplicate-free relation whose elements are exactly
the union of all stable batches. -/
theorem C8_complete (v : Variable α) :
    (v.complete = none ↔ (v.recent ≠ [] ∨ v.to_add ≠ []))
    ∧ (∀ r, v.complete = some r →
        List.Sorted (· < ·) r ∧ ∀ x, (x ∈ r ↔ ∃ b ∈ v.tuples, x ∈ b)) := by
  constructor
  · rw [Variable.complete]
    split_ifs with h
    · simp [h.1, h.2]
    · simp only [eq_self_iff_true, true_iff]
      exact not_and_or.mp h
  · intro r hr
    rw [Variable.complete] at hr
    split_ifs at hr with h
    · have hr' : v.tuples.reverse.foldl Relation.merge [] = r := Option.some.inj hr
      subst hr'
      constructor
      · exact sorted_lt_foldl_merge _ _ (by simp)
      · intro x
        rw [mem_foldl_merge]
        simp [List.mem_reverse]

/-- C8 witness: completing a concrete finished variable with two stable
batches merges them into one sorted relation. -/
theorem C8_complete_witness :
    List.Sorted (· < ·) ([1, 2, 3] : List ℕ)
    ∧ ∀ x, (x ∈ ([1, 2, 3] : List ℕ)
        ↔ ∃ b ∈ (⟨true, "v", [[1, 2], [2, 3]], [], []⟩ : Variable ℕ).tuples, x ∈ b) :=
  (C8_complete (⟨true, "v", [[1, 2], [2, 3]], [], []⟩ : Variable ℕ)).2 [1, 2, 3] (by decide)

theorem head?_dropWhile_lt {s : List α} (hs : List.Sorted (· ≤ ·) s) (x : α) :
    ((s.dropWhile fun y => decide (y < x)).head? = some x) ↔ x ∈ s := by
  constructor
  · intro h
    have hmem : x ∈ s.dropWhile fun y => decide (y < x) := by
      cases hdw : s.dropWhile fun y => decide (y < x) with
      | nil => rw [hdw] at h; simp at h
      | cons d rest =>
        rw [hdw] at h
        simp only [List.head?_cons, Option.some.injEq] at h
        subst h
        simp
    exact (List.dropWhile_sublist _).mem hmem
  · intro hx
    have hsplit := List.takeWhile_append_dropWhile (fun y => decide (y < x)) s
    have hxdw : x ∈ s.dropWhile fun y => decide (y < x) := by
      rcases List.mem_append.mp (by rw [hsplit]; exact hx) with h1 | h1
      · have := List.mem_takeWhile_imp h1
        simp at this
      · exact h1
    cases hdw : s.dropWhile fun y => decide (y < x) with
    | nil => rw [hdw] at hxdw; simp at hxdw
    | cons d rest =>
      rw [hdw] at hxdw
      have hdsorted : (d :: rest).Sorted (· ≤ ·) := by
        rw [← hdw]
        exact List.Pairwise.sublist (List.dropWhile_sublist _) hs
      have hdle : d ≤ x := by
        rcases List.mem_cons.mp hxdw with rfl | hxr
        · exact le_rfl
        · exact (List.pairwise_cons.mp hdsorted).1 x hxr
      have hdnlt : ¬ (d < x) := by
        have h0 := List.head?_dropWhile_not (fun y => decide (y < x)) s
        rw [hdw] at h0
        simpa using h0
      have : d = x := le_antisymm hdle (le_of_not_lt hdnlt)
      simp [this]

theorem mem_dropWhile_lt_of_le {s : List α} {x e : α} (hxe : x ≤ e) :
    (e ∈ s.dropWhile fun y => decide (y < x)) ↔ e ∈ s := by
  constructor
  · exact fun h => (List.dropWhile_sublist _).mem h
  · intro he
    have hsplit := List.takeWhile_append_dropWhile (fun y => decide (y < x)) s
    rcases List.mem_append.mp (by rw [hsplit]; exact he) with h1 | h1
    · have := List.mem_takeWhile_imp h1
      simp only [decide_eq_true_eq] at this
      exact absurd (lt_of_le_of_lt hxe this) (lt_irrefl x)
    · exact h1

theorem retainLoop_eq_filter :
    ∀ (elems slice : List α), List.Sorted (· ≤ ·) slice → List.Sorted (· ≤ ·) elems →
      retainLoop slice elems = elems.filter fun x => decide (x ∉ slice)
  | [], slice, _, _ => by rw [retainLoop, List.filter_nil]
  | x :: rest, slice, hsl, hel => by
    have hmono : Monotonic (fun y => decide (y < x)) slice := by
      refine hsl.imp ?_
      intro u v huv hv
      simp only [decide_eq_true_eq] at hv ⊢
      exact lt_of_le_of_lt huv hv
    have hgal : gallop slice (fun y => decide (y < x))
        = slice.dropWhile fun y => decide (y < x) := gallop_eq_dropWhile hmono
    have hrest : List.Sorted (· ≤ ·) rest := (List.pairwise_cons.mp hel).2
    have hxle : ∀ e ∈ rest, x ≤ e := (List.pairwise_cons.mp hel).1
    have hdws : List.Sorted (· ≤ ·) (slice.dropWhile fun y => decide (y < x)) :=
      List.Pairwise.sublist (List.dropWhile_sublist _) hsl
    have hcond : ((slice.dropWhile fun y => decide (y < x)).length = 0
        ∨ (slice.dropWhile fun y => decide (y < x)).head? ≠ some x) ↔ x ∉ slice := by
      rw [ne_eq, head?_dropWhile_lt hsl x]
      constructor
      · rintro (hlen | hne)
        · intro hx
          rw [List.length_eq_zero] at hlen
          have hsplit := List.takeWhile_append_dropWhile (fun y => decide (y < x)) slice
          rw [hlen, List.append_nil] at hsplit
          rw [← hsplit] at hx
          have := List.mem_takeWhile_imp hx
          simp at this
        · exact hne
      · exact fun h => Or.inr h
    have htail : retainLoop (slice.dropWhile fun y => decide (y < x)) rest
        = rest.filter fun e => decide (e ∉ slice) := by
      rw [retainLoop_eq_filter rest _ hdws hrest]
      apply List.filter_congr
      intro e he
      have : (e ∈ slice.dropWhile fun y => decide (y < x)) ↔ e ∈ slice :=
        mem_dropWhile_lt_of_le (hxle e he)
      simp [this]
    rw [retainLoop, hgal]
    by_cases hc : x ∈ slice
    · rw [if_neg (by rw [hcond]; simp [hc]), htail, List.filter_cons,
        if_neg (by simp [hc])]
    · rw [if_pos (hcond.mpr hc), htail, List.filter_cons, if_pos (by simp [hc])]

theorem sorted_le_foldl_merge :
    ∀ (bs : List (List α)) (acc : List α), List.Sorted (· ≤ ·) acc →
      List.Sorted (· ≤ ·) (bs.foldl Relation.merge acc)
  | [], _, h => h
  | b :: bs, acc, _ => by
    simp only [List.foldl_cons]
    exact sorted_le_foldl_merge bs _ (sorted_le_of_sorted_lt (sorted_lt_merge _ _))

theorem foldRecent_eq_some {ts : List (List α)} {rec last : List α}
    (hlast : ts.getLast? = some last) :
    foldRecent ts rec = if last.length ≤ 2 * rec.length then
      foldRecent ts.dropLast (Relation.merge rec last) else (ts, rec) := by
  rw [foldRecent]
  split
  · rename_i last2 heq
    rw [hlast] at heq
    cases Option.some.inj heq
    rfl
  · rename_i heq
    rw [hlast] at heq
    simp at heq

theorem foldRecent_eq_none {ts : List (List α)} {rec : List α}
    (hlast : ts.getLast? = none) :
    foldRecent ts rec = (ts, rec) := by
  rw [foldRecent]
  split
  · rename_i last2 heq
    rw [hlast] at heq
    simp at heq
  · rfl

theorem foldRecent_spec :
    ∀ (ts : List (List α)) (rec : List α),
      (∀ b ∈ ts, List.Sorted (· ≤ ·) b) → List.Sorted (· ≤ ·) rec →
      ts.Pairwise (fun b1 b2 => ∀ x ∈ b1, x ∉ b2) →
      (∀ x ∈ rec, ∀ b ∈ ts, x ∉ b) →
      (∀ b ∈ (foldRecent ts rec).1, List.Sorted (· ≤ ·) b)
      ∧ List.Sorted (· ≤ ·) (foldRecent ts rec).2
      ∧ (foldRecent ts rec).1.Pairwise (fun b1 b2 => ∀ x ∈ b1, x ∉ b2)
      ∧ (∀ x ∈ (foldRecent ts rec).2, ∀ b ∈ (foldRecent ts rec).1, x ∉ b) := by
  intro ts rec
  induction ts, rec using foldRecent.induct with
  | case1 ts rec last hlast hcond ih =>
    intro hts hrs hdisj hrd
    have hne : ts ≠ [] := by
      intro e
      rw [e] at hlast
      simp at hlast
    have hlast' : last = ts.getLast hne := by
      have := List.getLast?_eq_getLast ts hne
      rw [hlast] at this
      exact Option.some.inj this
    have hdecomp : ts.dropLast ++ [ts.getLast hne] = ts := List.dropLast_append_getLast hne
    have hlastmem : last ∈ ts := by
      rw [hlast']
      exact List.getLast_mem hne
    have hsubdl : ts.dropLast.Sublist ts := List.dropLast_sublist ts
    have hcross : ∀ b ∈ ts.dropLast, ∀ x ∈ b, x ∉ last := by
      have hpair : (ts.dropLast ++ [ts.getLast hne]).Pairwise
          (fun b1 b2 => ∀ x ∈ b1, x ∉ b2) := by
        rw [hdecomp]
        exact hdisj
      rw [List.pairwise_append] at hpair
      intro b hb x hx
      rw [hlast']
      exact hpair.2.2 b hb (ts.getLast hne) (by simp) x hx
    have harg1 : ∀ b ∈ ts.dropLast, List.Sorted (· ≤ ·) b :=
      fun b hb => hts b (hsubdl.mem hb)
    have harg2 : List.Sorted (· ≤ ·) (Relation.merge rec last) :=
      sorted_le_of_sorted_lt (sorted_lt_merge _ _)
    have harg3 : ts.dropLast.Pairwise (fun b1 b2 => ∀ x ∈ b1, x ∉ b2) :=
      List.Pairwise.sublist hsubdl hdisj
    have harg4 : ∀ x ∈ Relation.merge rec last, ∀ b ∈ ts.dropLast, x ∉ b := by
      intro x hx b hb
      rcases mem_merge.mp hx with h1 | h1
      · exact hrd x h1 b (hsubdl.mem hb)
      · intro hxb
        exact hcross b hb x hxb h1
    have := ih harg1 harg2 harg3 harg4
    rw [foldRecent_eq_some hlast, if_pos hcond]
    exact this
  | case2 ts rec last hlast hcond =>
    intro hts hrs hdisj hrd
    rw [foldRecent_eq_some hlast, if_neg hcond]
    exact ⟨hts, hrs, hdisj, hrd⟩
  | case3 ts rec hlast =>
    intro hts hrs hdisj hrd
    rw [foldRecent_eq_none hlast]
    exact ⟨hts, hrs, hdisj, hrd⟩

theorem retain_foldl_spec :
    ∀ (bs : List (List α)) (acc : List α),
      (∀ b ∈ bs, List.Sorted (· ≤ ·) b) → List.Sorted (· ≤ ·) acc →
      List.Sorted (· ≤ ·) (bs.foldl (fun acc batch => retainLoop batch acc) acc)
      ∧ (∀ x ∈ bs.foldl (fun acc batch => retainLoop batch acc) acc, x ∈ acc)
      ∧ (∀ b ∈ bs, ∀ x ∈ bs.foldl (fun acc batch => retainLoop batch acc) acc, x ∉ b)
  | [], acc, _, hacc => ⟨hacc, fun _ hx => hx, by simp⟩
  | b :: bs, acc, hbs, hacc => by
    simp only [List.foldl_cons]
    have hstep : retainLoop b acc = acc.filter fun x => decide (x ∉ b) :=
      retainLoop_eq_filter acc b (hbs b (by simp)) hacc
    have hsorted : List.Sorted (· ≤ ·) (retainLoop b acc) := by
      rw [hstep]
      exact List.Pairwise.sublist (List.filter_sublist _) hacc
    obtain ⟨h1, h2, h3⟩ :=
      retain_foldl_spec bs (retainLoop b acc) (fun b' hb' => hbs b' (by simp [hb'])) hsorted
    refine ⟨h1, ?_, ?_⟩
    · intro x hx
      have hx2 := h2 x hx
      rw [hstep] at hx2
      exact (List.mem_filter.mp hx2).1
    · intro b' hb' x hx
      rcases List.mem_cons.mp hb' with rfl | hb'
      · have hx2 := h2 x hx
        rw [hstep] at hx2
        have := (List.mem_filter.mp hx2).2
        simpa using this
      · exact h3 b' hb' x hx

theorem changed_preserves {w : Variable α}
    (hd : w.distinct = true)
    (hts : ∀ b ∈ w.tuples, List.Sorted (· ≤ ·) b)
    (hrs : List.Sorted (· ≤ ·) w.recent)
    (hta : ∀ r ∈ w.to_add, List.Sorted (· ≤ ·) r)
    (hdisj : w.tuples.Pairwise fun b1 b2 => ∀ x ∈ b1, x ∉ b2)
    (hrd : ∀ x ∈ w.recent, ∀ b ∈ w.tuples, x ∉ b) :
    (w.changed).1.distinct = true
    ∧ (∀ b ∈ (w.changed).1.tuples, List.Sorted (· ≤ ·) b)
    ∧ List.Sorted (· ≤ ·) (w.changed).1.recent
    ∧ (∀ r ∈ (w.changed).1.to_add, List.Sorted (· ≤ ·) r)
    ∧ (w.changed).1.tuples.Pairwise (fun b1 b2 => ∀ x ∈ b1, x ∉ b2)
    ∧ (∀ x ∈ (w.changed).1.recent, ∀ b ∈ (w.changed).1.tuples, x ∉ b) := by
  obtain ⟨hf1, hf2, hf3, hf4⟩ := foldRecent_spec w.tuples w.recent hts hrs hdisj hrd
  have htupS : ∀ b ∈ (if (foldRecent w.tuples w.recent).2.isEmpty
      then (foldRecent w.tuples w.recent).1
      else (foldRecent w.tuples w.recent).1 ++ [(foldRecent w.tuples w.recent).2]),
      List.Sorted (· ≤ ·) b := by
    split_ifs with he
    · exact hf1
    · intro b hb
      rcases List.mem_append.mp hb with h1 | h1
      · exact hf1 b h1
      · rw [List.mem_singleton] at h1
        subst h1
        exact hf2
  have htupD : (if (foldRecent w.tuples w.recent).2.isEmpty
      then (foldRecent w.tuples w.recent).1
      else (foldRecent w.tuples w.recent).1 ++ [(foldRecent w.tuples w.recent).2]).Pairwise
      (fun b1 b2 => ∀ x ∈ b1, x ∉ b2) := by
    split_ifs with he
    · exact hf3
    · rw [List.pairwise_append]
      refine ⟨hf3, by simp, ?_⟩
      intro b hb b' hb' x hx
      rw [List.mem_singleton] at hb'
      subst hb'
      intro hx2
      exact hf4 x hx2 b hb hx
  simp only [Variable.changed]
  cases hgl : w.to_add.getLast? with
  | none =>
    simp only
    exact ⟨hd, htupS, by simp, by simp, htupD, by simp⟩
  | some last =>
    simp only
    rw [if_pos hd]
    have hne : w.to_add ≠ [] := by
      intro e
      rw [e] at hgl
      simp at hgl
    have hlastmem : last ∈ w.to_add := by
      have := List.getLast?_eq_getLast w.to_add hne
      rw [hgl] at this
      rw [Option.some.inj this]
      exact List.getLast_mem hne
    have hmerged : List.Sorted (· ≤ ·)
        ((w.to_add.dropLast.reverse).foldl Relation.merge last) :=
      sorted_le_foldl_merge _ _ (hta last hlastmem)
    obtain ⟨hrS, hrSub, hrDisj⟩ := retain_foldl_spec _ _ htupS hmerged
    exact ⟨hd, htupS, hrS, by simp, htupD, fun x hx b hb => hrDisj b hb x hx⟩

theorem reaches_inv {nm : String} {v : Variable α}
    (h : Reaches (Variable.new nm) v) :
    v.distinct = true
    ∧ (∀ b ∈ v.tuples, List.Sorted (· ≤ ·) b)
    ∧ List.Sorted (· ≤ ·) v.recent
    ∧ (∀ r ∈ v.to_add, List.Sorted (· ≤ ·) r)
    ∧ v.tuples.Pairwise (fun b1 b2 => ∀ x ∈ b1, x ∉ b2)
    ∧ (∀ x ∈ v.recent, ∀ b ∈ v.tuples, x ∉ b) := by
  induction h with
  | refl => simp [Variable.new]
  | insert w r hre hsort ih =>
    obtain ⟨hd, hts, hrs, hta, hdisj, hrd⟩ := ih
    refine ⟨hd, hts, hrs, ?_, hdisj, hrd⟩
    intro r' hr'
    rcases List.mem_append.mp hr' with h1 | h1
    · exact hta r' h1
    · rw [List.mem_singleton] at h1
      subst h1
      exact hsort
  | step w hre ih =>
    obtain ⟨hd, hts, hrs, hta, hdisj, hrd⟩ := ih
    exact changed_preserves hd hts hrs hta hdisj hrd

/-- C3: for a variable created with distinct = true (Variable::new, as used by
Iteration::variable), after any sequence of inserts of valid sorted relations
and steps through changed, no tuple appears in more than one stable batch,
and no tuple in recent appears in any stable batch. -/
theorem C3_distinct_invariant {nm : String} {v : Variable α}
    (h : Reaches (Variable.new nm) v) :
    v.tuples.Pairwise (fun b1 b2 => ∀ x ∈ b1, x ∉ b2)
    ∧ (∀ x ∈ v.recent, ∀ b ∈ v.tuples, x ∉ b) :=
  ⟨(reaches_inv h).2.2.2.2.1, (reaches_inv h).2.2.2.2.2⟩

/-- C3 witness: the invariant holds after inserting a sorted relation into a
fresh variable and stepping it. -/
theorem C3_distinct_invariant_witness :
    ((((Variable.new "v" : Variable ℕ).insert [1, 2]).changed).1.tuples.Pairwise
        (fun b1 b2 => ∀ x ∈ b1, x ∉ b2))
    ∧ (∀ x ∈ (((Variable.new "v" : Variable ℕ).insert [1, 2]).changed).1.recent,
        ∀ b ∈ (((Variable.new "v" : Variable ℕ).insert [1, 2]).changed).1.tuples, x ∉ b) :=
  C3_distinct_invariant
    (Reaches.step _ _ (Reaches.insert _ _ [1, 2] (Reaches.refl _) (by decide)))

theorem antijoinLoop_eq_filter {κ ν ρ : Type} [LinearOrder κ] (logic : κ → ν → ρ) :
    ∀ (elems : List (κ × ν)) (ts : List κ), List.Sorted (· ≤ ·) ts →
      elems.Pairwise (fun u v => u.1 ≤ v.1) →
      antijoinLoop logic ts elems
        = (elems.filter fun kv => decide (kv.1 ∉ ts)).map fun kv => logic kv.1 kv.2
  | [], ts, _, _ => by
    rw [antijoinLoop]
    simp
  | kv :: rest, ts, hts, hel => by
    have hmono : Monotonic (fun y => decide (y < kv.1)) ts := by
      refine hts.imp ?_
      intro u v huv hv
      simp only [decide_eq_true_eq] at hv ⊢
      exact lt_of_le_of_lt huv hv
    have hgal : gallop ts (fun y => decide (y < kv.1))
        = ts.dropWhile fun y => decide (y < kv.1) := gallop_eq_dropWhile hmono
    have hrest : rest.Pairwise (fun u v => u.1 ≤ v.1) := (List.pairwise_cons.mp hel).2
    have hkle : ∀ e ∈ rest, kv.1 ≤ e.1 := (List.pairwise_cons.mp hel).1
    have hdws : List.Sorted (· ≤ ·) (ts.dropWhile fun y => decide (y < kv.1)) :=
      List.Pairwise.sublist (List.dropWhile_sublist _) hts
    have hcond : ((ts.dropWhile fun y => decide (y < kv.1)).head? ≠ some kv.1)
        ↔ kv.1 ∉ ts := by
      rw [ne_eq, head?_dropWhile_lt hts kv.1]
    have htail : antijoinLoop logic (ts.dropWhile fun y => decide (y < kv.1)) rest
        = (rest.filter fun p => decide (p.1 ∉ ts)).map fun p => logic p.1 p.2 := by
      rw [antijoinLoop_eq_filter logic rest _ hdws hrest]
      congr 1
      apply List.filter_congr
      intro e he
      have hmm : (e.1 ∈ ts.dropWhile fun y => decide (y < kv.1)) ↔ e.1 ∈ ts :=
        mem_dropWhile_lt_of_le (hkle e he)
      simp [hmm]
    rw [antijoinLoop, hgal]
    by_cases hc : kv.1 ∈ ts
    · rw [if_neg (by rw [hcond]; simp [hc]), htail, List.filter_cons, if_neg (by simp [hc])]
    · rw [if_pos (hcond.mpr hc), htail, List.filter_cons, if_pos (by simp [hc]),
        List.map_cons]

/-- C6: for an antijoin of a variable of pairs against a static sorted
relation of keys, the results collected for the output are exactly
logic(k, v) for the recent pairs (k, v) whose key is absent from the
relation; the stable batches of input1 contribute nothing, as the operator
reads only input1's recent. -/
theorem C6_antijoin {κ ν ρ : Type} [LinearOrder κ] [LinearOrder ρ]
    (recent1 : List (κ × ν)) (input2 : List κ) (logic : κ → ν → ρ)
    (hr : recent1.Pairwise fun u v => u.1 ≤ v.1)
    (h2 : List.Sorted (· ≤ ·) input2) :
    ∀ r, r ∈ antijoin recent1 input2 logic
      ↔ ∃ p ∈ recent1, p.1 ∉ input2 ∧ r = logic p.1 p.2 := by
  intro r
  rw [antijoin, mem_from_vec, antijoinLoop_eq_filter logic recent1 input2 h2 hr]
  simp only [List.mem_map, List.mem_filter, decide_eq_true_eq]
  constructor
  · rintro ⟨p, ⟨hp, hnm⟩, hpr⟩
    exact ⟨p, hp, hnm, hpr.symm⟩
  · rintro ⟨p, hp, hnm, hpr⟩
    exact ⟨p, ⟨hp, hnm⟩, hpr.symm⟩

/-- C6 witness: a concrete antijoin keeping only the pair whose key misses the
static relation. -/
theorem C6_antijoin_witness :
    110 ∈ antijoin [((1 : ℕ), (10 : ℕ)), (2, 20)] [2] (fun k v => k * 100 + v)
      ↔ ∃ p ∈ [((1 : ℕ), (10 : ℕ)), (2, 20)], p.1 ∉ ([2] : List ℕ)
          ∧ 110 = p.1 * 100 + p.2 :=
  C6_antijoin [((1 : ℕ), (10 : ℕ)), (2, 20)] [2] (fun k v => k * 100 + v)
    (by decide) (by decide) 110

end Datafrog
